import Mathlib

/-!
Shallow embedding of the LLMCompiler plan parser and task scheduler from
`src/llmcompiler/output_parser.py` and `src/llmcompiler/task_fetching.py`.

Conventions of the embedding:
* Python strings are `String` / `List Char`; scanning code works on `List Char`.
* The Python dict `observations : Dict[int, Any]` becomes an association list
  with most-recent-first shadowing (`insertObs` conses; `lookupObs` takes the
  first hit), which has exactly dict get/set semantics for the operations the
  source uses.  Observation values are `String` (capabilities return strings;
  `str` applied to a string is the identity).
* The regular expressions `ID_PATTERN = \$\{?(\d+)\}?`, `THOUGHT_PATTERN`
  and `ACTION_PATTERN` are implemented as explicit character scanners with
  the same left-to-right leftmost-match semantics on newline-free lines.
* Python exceptions raised by the code under test become `Except String`;
  `langchain` tool objects become `BTool` records whose `invoke` field is an
  arbitrary function returning `Except String String` (failure = raise).
-/

namespace LLMC

/-- Dollar character that starts every `ID_PATTERN` reference token. -/
def dollar : Char := '$'

/-- Opening brace of `ID_PATTERN`, written by code point. -/
def lbrace : Char := Char.ofNat 123

/-- Closing brace of `ID_PATTERN`, written by code point. -/
def rbrace : Char := Char.ofNat 125

/-- Numeric value of a digit run, modelling Python `int(...)` on the digit
group captured by `ID_PATTERN`. -/
def digitsToNat (ds : List Char) : Nat :=
  ds.foldl (fun a c => a * 10 + (c.toNat - 48)) 0

/-- Observation map: the scheduler's shared `observations : Dict[int, Any]`. -/
abbrev Obs := List (Nat × String)

/-- Membership test `idx in observations` on the model dictionary. -/
def keyMem (obs : Obs) (i : Nat) : Bool :=
  (obs.map Prod.fst).contains i

/-- Lookup `observations.get(idx)`: first (most recent) binding wins. -/
def lookupObs (obs : Obs) (i : Nat) : Option String :=
  match obs with
  | [] => none
  | p :: rest => if p.1 = i then some p.2 else lookupObs rest i

/-- Assignment `observations[idx] = v` (shadowing cons). -/
def insertObs (obs : Obs) (i : Nat) (v : String) : Obs :=
  (i, v) :: obs

/-- Consume one optional leading occurrence of `ch`, returning the consumed
characters and the remainder (helper for the optional braces of
`ID_PATTERN`). -/
def stripLead (ch : Char) (cs : List Char) : List Char × List Char :=
  match cs with
  | c :: t => if c = ch then ([c], t) else ([], c :: t)
  | [] => ([], [])

theorem stripLead_snd_length (ch : Char) (cs : List Char) :
    (stripLead ch cs).2.length ≤ cs.length := by
  cases cs with
  | nil => simp [stripLead]
  | cons c t => by_cases h : c = ch <;> simp [stripLead, h]

/-- Attempt to match the tail of `ID_PATTERN` (everything after the `$`):
an optional opening brace, one or more digits, an optional closing brace.
Returns the full matched text (including the leading `$`), the parsed
index, and the remaining characters.  Mirrors the regex exactly: the two
braces are independent optionals and the digit run is maximal. -/
def tryRef (rest : List Char) : Option (List Char × Nat × List Char) :=
  let p1 := stripLead lbrace rest
  let ds := p1.2.takeWhile Char.isDigit
  if ds = [] then none
  else
    let p2 := stripLead rbrace (p1.2.drop ds.length)
    some (dollar :: (p1.1 ++ ds ++ p2.1), digitsToNat ds, p2.2)

theorem tryRef_length {rest m : List Char} {k : Nat} {r3 : List Char}
    (h : tryRef rest = some (m, k, r3)) : r3.length ≤ rest.length := by
  unfold tryRef at h
  dsimp only at h
  split at h
  · exact absurd h (by simp)
  · have h3 : r3 = (stripLead rbrace
        (((stripLead lbrace rest).2.drop
          ((stripLead lbrace rest).2.takeWhile Char.isDigit).length))).2 := by
      injection h with h
      injection h with _ h
      injection h with _ h
      exact h.symm
    subst h3
    calc (stripLead rbrace _).2.length
        ≤ ((stripLead lbrace rest).2.drop
            ((stripLead lbrace rest).2.takeWhile Char.isDigit).length).length :=
          stripLead_snd_length _ _
      _ ≤ (stripLead lbrace rest).2.length := by
          simp [List.length_drop]
      _ ≤ rest.length := stripLead_snd_length _ _

/-- Replacement text for one `ID_PATTERN` match, modelling
`str(observations.get(idx, match.group(0)))` inside `_resolve_arg`:
the stringified observation when the index is present, the literal
matched text otherwise. -/
def refReplace (obs : Obs) (k : Nat) (m : List Char) : List Char :=
  match lookupObs obs k with
  | some v => v.toList
  | none => m

theorem tryRef_length_tuple {rest : List Char} {r : List Char × Nat × List Char}
    (h : tryRef rest = some r) : r.2.2.length ≤ rest.length := by
  obtain ⟨m, k, r3⟩ := r
  exact tryRef_length h

/-- Fuelled scanner underlying `scanSub`: structural recursion on the fuel
keeps the function kernel-computable.  The fuel only ever decreases in step
with the scanned list (`tryRef` never lengthens the remainder), so with
fuel at least the list length the zero-fuel branch is unreachable. -/
def scanSubF (obs : Obs) : Nat → List Char → List Char
  | _, [] => []
  | 0, cs => cs
  | fuel + 1, c :: rest =>
    if c = dollar then
      match tryRef rest with
      | some r => refReplace obs r.2.1 r.1 ++ scanSubF obs fuel r.2.2
      | none => c :: scanSubF obs fuel rest
    else c :: scanSubF obs fuel rest

/-- Model of `re.sub(ID_PATTERN, replace_match, arg)` from `_resolve_arg`:
scan left to right; at a `$` attempt the reference match, emit the
replacement and continue after the match; otherwise copy the character. -/
def scanSub (obs : Obs) (cs : List Char) : List Char :=
  scanSubF obs cs.length cs

/-- Fuelled scanner underlying `findRefs`. -/
def findRefsF : Nat → List Char → List Nat
  | _, [] => []
  | 0, _ => []
  | fuel + 1, c :: rest =>
    if c = dollar then
      match tryRef rest with
      | some r => r.2.1 :: findRefsF fuel r.2.2
      | none => findRefsF fuel rest
    else findRefsF fuel rest

/-- Model of `re.findall(ID_PATTERN, s)` composed with `int`: the list of
reference indices in scan order (used by `_get_dependencies_from_graph`). -/
def findRefs (cs : List Char) : List Nat :=
  findRefsF cs.length cs

theorem scanSubF_fuel (obs : Obs) :
    ∀ (fuel1 fuel2 : Nat) (cs : List Char), cs.length ≤ fuel1 →
      cs.length ≤ fuel2 → scanSubF obs fuel1 cs = scanSubF obs fuel2 cs := by
  intro fuel1
  induction fuel1 with
  | zero =>
    intro fuel2 cs h1 h2
    have : cs = [] := List.length_eq_zero.mp (Nat.le_zero.mp h1)
    subst this
    cases fuel2 <;> rfl
  | succ f1 ih =>
    intro fuel2 cs h1 h2
    cases cs with
    | nil => cases fuel2 <;> rfl
    | cons c rest =>
      cases fuel2 with
      | zero => simp at h2
      | succ f2 =>
        simp only [List.length_cons, Nat.succ_le_succ_iff] at h1 h2
        simp only [scanSubF]
        by_cases hc : c = dollar
        · subst hc
          rw [if_pos rfl, if_pos rfl]
          cases hr : tryRef rest with
          | some r =>
            dsimp only
            have hl := tryRef_length_tuple hr
            rw [ih f2 r.2.2 (le_trans hl h1) (le_trans hl h2)]
          | none =>
            dsimp only
            rw [ih f2 rest h1 h2]
        · rw [if_neg hc, if_neg hc]
          rw [ih f2 rest h1 h2]

theorem findRefsF_fuel :
    ∀ (fuel1 fuel2 : Nat) (cs : List Char), cs.length ≤ fuel1 →
      cs.length ≤ fuel2 → findRefsF fuel1 cs = findRefsF fuel2 cs := by
  intro fuel1
  induction fuel1 with
  | zero =>
    intro fuel2 cs h1 h2
    have : cs = [] := List.length_eq_zero.mp (Nat.le_zero.mp h1)
    subst this
    cases fuel2 <;> rfl
  | succ f1 ih =>
    intro fuel2 cs h1 h2
    cases cs with
    | nil => cases fuel2 <;> rfl
    | cons c rest =>
      cases fuel2 with
      | zero => simp at h2
      | succ f2 =>
        simp only [List.length_cons, Nat.succ_le_succ_iff] at h1 h2
        simp only [findRefsF]
        by_cases hc : c = dollar
        · subst hc
          rw [if_pos rfl, if_pos rfl]
          cases hr : tryRef rest with
          | some r =>
            dsimp only
            have hl := tryRef_length_tuple hr
            rw [ih f2 r.2.2 (le_trans hl h1) (le_trans hl h2)]
          | none =>
            dsimp only
            rw [ih f2 rest h1 h2]
        · rw [if_neg hc, if_neg hc]
          rw [ih f2 rest h1 h2]

theorem scanSub_nil (obs : Obs) : scanSub obs [] = [] := rfl

theorem scanSub_cons_not_dollar (obs : Obs) {c : Char} (rest : List Char)
    (hc : c ≠ dollar) : scanSub obs (c :: rest) = c :: scanSub obs rest := by
  simp only [scanSub, List.length_cons, scanSubF, if_neg hc]

theorem scanSub_cons_dollar_none (obs : Obs) {rest : List Char}
    (hn : tryRef rest = none) :
    scanSub obs (dollar :: rest) = dollar :: scanSub obs rest := by
  simp only [scanSub, List.length_cons, scanSubF, if_pos rfl, hn, if_true]

theorem scanSub_cons_dollar_some (obs : Obs) {rest m : List Char} {k : Nat}
    {r3 : List Char} (hs : tryRef rest = some (m, k, r3)) :
    scanSub obs (dollar :: rest) = refReplace obs k m ++ scanSub obs r3 := by
  simp only [scanSub, List.length_cons, scanSubF, if_pos rfl, hs, if_true]
  rw [scanSubF_fuel obs rest.length r3.length r3 (tryRef_length hs) le_rfl]

theorem findRefs_nil : findRefs [] = [] := rfl

theorem findRefs_cons_not_dollar {c : Char} (rest : List Char)
    (hc : c ≠ dollar) : findRefs (c :: rest) = findRefs rest := by
  simp only [findRefs, List.length_cons, findRefsF, if_neg hc]

theorem findRefs_cons_dollar_none {rest : List Char}
    (hn : tryRef rest = none) :
    findRefs (dollar :: rest) = findRefs rest := by
  simp only [findRefs, List.length_cons, findRefsF, if_pos rfl, hn, if_true]

theorem findRefs_cons_dollar_some {rest m : List Char} {k : Nat}
    {r3 : List Char} (hs : tryRef rest = some (m, k, r3)) :
    findRefs (dollar :: rest) = k :: findRefs r3 := by
  simp only [findRefs, List.length_cons, findRefsF, if_pos rfl, hs, if_true]
  rw [findRefsF_fuel rest.length r3.length r3 (tryRef_length hs) le_rfl]

theorem scanSub_of_findRefs_nil_fuel (obs : Obs) :
    ∀ (fuel : Nat) (cs : List Char), cs.length ≤ fuel →
      findRefs cs = [] → scanSub obs cs = cs := by
  intro fuel
  induction fuel with
  | zero =>
    intro cs h1 h
    have : cs = [] := List.length_eq_zero.mp (Nat.le_zero.mp h1)
    subst this
    rfl
  | succ f ih =>
    intro cs h1 h
    cases cs with
    | nil => rfl
    | cons c rest =>
      simp only [List.length_cons, Nat.succ_le_succ_iff] at h1
      by_cases hc : c = dollar
      · subst hc
        cases hr : tryRef rest with
        | some r =>
          obtain ⟨m, k, r3⟩ := r
          rw [findRefs_cons_dollar_some hr] at h
          cases h
        | none =>
          rw [findRefs_cons_dollar_none hr] at h
          rw [scanSub_cons_dollar_none obs hr, ih rest h1 h]
      · rw [findRefs_cons_not_dollar rest hc] at h
        rw [scanSub_cons_not_dollar obs rest hc, ih rest h1 h]

/-- When a string contains no reference token at all, `re.sub` over
`ID_PATTERN` is the identity on it. -/
theorem scanSub_of_findRefs_nil (obs : Obs) (cs : List Char)
    (h : findRefs cs = []) : scanSub obs cs = cs :=
  scanSub_of_findRefs_nil_fuel obs cs.length cs le_rfl h

/-- Parsed argument values, the value domain of a task's `args` dict:
what `ast.literal_eval` can produce here, or raw string fallback. -/
inductive Arg where
  | str (s : String)
  | num (n : Int)
  | vals (l : List Arg)
deriving Repr

/-- Single-quote character used by Python `repr` on strings, by code point. -/
def sq : Char := Char.ofNat 39

mutual

/-- Python `repr` of an argument value (quote escaping inside strings is not
modelled; no claim depends on it). -/
def argRepr : Arg → String
  | .str s => String.mk [sq] ++ s ++ String.mk [sq]
  | .num n => toString n
  | .vals l => "[" ++ String.intercalate ", " (argReprList l) ++ "]"

/-- Element-wise `repr` used for Python list rendering. -/
def argReprList : List Arg → List String
  | [] => []
  | a :: rest => argRepr a :: argReprList rest

end

/-- Python `str` of an argument value: identity on strings, `repr`-based
rendering of numbers and lists, as used by `extract_deps(str(arg_value))`. -/
def argToString : Arg → String
  | .str s => s
  | a => argRepr a

/-- Integer literal recognizer: optional minus sign then a digit run. -/
def parseIntLit (cs : List Char) : Option Int :=
  match cs with
  | [] => none
  | c :: rest =>
    if c = Char.ofNat 45 then
      if rest ≠ [] ∧ rest.all Char.isDigit then some (-(digitsToNat rest : Int))
      else none
    else if (c :: rest).all Char.isDigit then some (digitsToNat (c :: rest) : Int)
    else none

/-- Quoted string literal recognizer: matching quote characters at both ends
and no quote character inside. -/
def parseStrLit (cs : List Char) : Option String :=
  match cs with
  | [] => none
  | c :: rest =>
    if (c = sq ∨ c = Char.ofNat 34) ∧ rest ≠ [] ∧ rest.getLast? = some c ∧
        rest.dropLast.all (· ≠ c) then
      some (String.mk rest.dropLast)
    else none

/-- Model of `_ast_parse`, i.e. `ast.literal_eval` with raw-string fallback.
The model evaluates the literal forms that matter to the claims (integers
and quoted strings); every other text — in particular any text containing
a reference token, which is never a valid literal — falls back to the raw
string exactly like the `except` branch of the source. -/
def astParse (cs : List Char) : Arg :=
  match parseIntLit cs with
  | some n => .num n
  | none =>
    match parseStrLit cs with
    | some s => .str s
    | none => .str (String.mk cs)

mutual

/-- Model of `_resolve_arg` from `task_fetching.py`: regex substitution on
strings, element-wise recursion on lists, identity on other scalars. -/
def _resolve_arg (arg : Arg) (obs : Obs) : Arg :=
  match arg with
  | .str s => .str (String.mk (scanSub obs s.toList))
  | .num n => .num n
  | .vals l => .vals (resolveList l obs)

/-- The list comprehension branch of `_resolve_arg`. -/
def resolveList (l : List Arg) (obs : Obs) : List Arg :=
  match l with
  | [] => []
  | a :: rest => _resolve_arg a obs :: resolveList rest obs

end

theorem resolveList_eq_map (l : List Arg) (obs : Obs) :
    resolveList l obs = l.map fun a => _resolve_arg a obs := by
  induction l with
  | nil => rfl
  | cons a rest ih => simp [resolveList, ih]

/-- Insertion of a value into a sorted list (ascending). -/
def insSorted (i : Nat) : List Nat → List Nat
  | [] => [i]
  | j :: js => if i ≤ j then i :: j :: js else j :: insSorted i js

/-- Insertion sort, modelling Python `sorted` on a list of task indices. -/
def sortNat (l : List Nat) : List Nat := l.foldr insSorted []

/-- Model of `_get_dependencies_from_graph` from `output_parser.py`:
`join` depends on `range(1, idx)`; any other task depends on the sorted
de-duplicated reference indices found in the stringified argument values. -/
def _get_dependencies_from_graph (idx : Nat) (tool_name : String)
    (args : List (String × Arg)) : List Nat :=
  if tool_name = "join" then List.range' 1 (idx - 1)
  else sortNat ((args.map fun p => findRefs (argToString p.2).toList).flatten).dedup

/-- Model of a `langchain` `BaseTool`: a name, the declared argument keys
(`tool.args.keys()` in declaration order), and an invocation function whose
`Except.error` models a raised exception (the error string models
`repr(e)`). -/
structure BTool where
  name : String
  argKeys : List String
  invoke : List (String × Arg) → Except String String

/-- The `tool` field of a task: either a plain string (the `join` sentinel)
or an actual tool object. -/
inductive ToolRef where
  | str (s : String)
  | tool (t : BTool)

/-- Model of the `Task` TypedDict of `output_parser.py`. -/
structure Task where
  idx : Nat
  tool : ToolRef
  args : List (String × Arg)
  dependencies : List Nat
  thought : Option String

/-- Name of a task for scheduler bookkeeping (`task["tool"]` if it is a
string, else `task["tool"].name`). -/
def toolName : ToolRef → String
  | .str s => s
  | .tool t => t.name

/-- Search text `f"{key}="` used by the argument splitter. -/
def keyEq (key : String) : List Char := key.toList ++ [Char.ofNat 61]

/-- Index of the first occurrence of `pat` in a character list, modelling
Python `args.index(pat)` guarded by `pat in args`. -/
def findSub (pat : List Char) : List Char → Option Nat
  | [] => if pat = [] then some 0 else none
  | c :: rest =>
    if (c :: rest).take pat.length = pat then some 0
    else (findSub pat rest).map (· + 1)

/-- Python `str.strip()` (whitespace from both ends). -/
def stripWs (cs : List Char) : List Char :=
  ((cs.dropWhile Char.isWhitespace).reverse.dropWhile Char.isWhitespace).reverse

/-- Python `str.rstrip(ch)` for a single strip character. -/
def rstripC (ch : Char) (cs : List Char) : List Char :=
  (cs.reverse.dropWhile (· = ch)).reverse

/-- Dict assignment `extracted_args[key] = v`: overwrite in place if the key
exists, append otherwise (insertion-ordered dict semantics). -/
def upsert (ex : List (String × Arg)) (k : String) (v : Arg) : List (String × Arg) :=
  if ex.any fun p => p.1 = k then ex.map fun p => if p.1 = k then (k, v) else p
  else ex ++ [(k, v)]

/-- The key loop of `_parse_llm_compiler_action_args`: thread the remaining
argument text, the pending key (`tool_key`; its presence also encodes
`prev_idx is not None`, since `prev_idx` is only ever `None` or `0`), and
the extracted dict through the declared keys in order. -/
def parseArgsLoop : List String → List Char → Option String → List (String × Arg) →
    List Char × Option String × List (String × Arg)
  | [], args, tk, ex => (args, tk, ex)
  | key :: keys, args, tk, ex =>
    match findSub (keyEq key) args with
    | none => parseArgsLoop keys args tk ex
    | some i =>
      let ex2 := match tk with
        | none => ex
        | some k => upsert ex k (astParse (rstripC (Char.ofNat 44) (stripWs (args.take i))))
      parseArgsLoop keys (args.drop (i + (keyEq key).length)) (some key) ex2

/-- Model of `_parse_llm_compiler_action_args` from `output_parser.py`. -/
def _parse_llm_compiler_action_args (args : String) (tool : ToolRef) :
    List (String × Arg) :=
  if args = "" then []
  else
    match tool with
    | .str _ => []
    | .tool t =>
      let r := parseArgsLoop t.argKeys args.toList none []
      match r.2.1 with
      | none => r.2.2
      | some k =>
        upsert r.2.2 k
          (astParse (rstripC (Char.ofNat 41) (rstripC (Char.ofNat 44) (stripWs r.1))))

/-- Model of `instantiate_task` from `output_parser.py`; the raised
`OutputParserException` becomes `Except.error` with the same message. -/
def instantiate_task (tools : List BTool) (idx : Nat) (tool_name : String)
    (args : String) (thought : Option String) : Except String Task :=
  match (if tool_name = "join" then some (ToolRef.str "join")
         else (tools.find? fun t => t.name = tool_name).map ToolRef.tool) with
  | none => .error ("Tool " ++ tool_name ++ " not found.")
  | some tool =>
    let tool_args := _parse_llm_compiler_action_args args tool
    .ok ⟨idx, tool, tool_args, _get_dependencies_from_graph idx tool_name tool_args,
      thought⟩

/-- Newline character. -/
def nl : Char := Char.ofNat 10

/-- Python `text.split(chr(10))`: split into lines at every newline,
keeping empty segments; never returns the empty list. -/
def splitNl : List Char → List (List Char)
  | [] => [[]]
  | c :: rest =>
    if c = nl then [] :: splitNl rest
    else
      match splitNl rest with
      | l :: ls => (c :: l) :: ls
      | [] => [[c]]

/-- Fixed marker of `THOUGHT_PATTERN`. -/
def thoughtMarker : List Char := "Thought: ".toList

/-- Model of `re.match(THOUGHT_PATTERN, line)` on a newline-free line:
a line starting with the marker captures everything after it. -/
def parseThought (line : List Char) : Option (List Char) :=
  if line.take thoughtMarker.length = thoughtMarker then
    some (line.drop thoughtMarker.length)
  else none

/-- Word characters matched by the regex class backslash-w (ASCII model). -/
def isWordChar (c : Char) : Bool := c.isAlphanum || c = Char.ofNat 95

/-- Characters of `cs` strictly before its last closing parenthesis, or
`none` when `cs` has no closing parenthesis.  This is what the greedy
`\((.*)\)` group of `ACTION_PATTERN` captures after the opening
parenthesis. -/
def lastParenSplit (cs : List Char) : Option (List Char) :=
  match cs.reverse.dropWhile (· ≠ Char.ofNat 41) with
  | [] => none
  | _ :: t => some t.reverse

/-- Model of `re.match(ACTION_PATTERN, line)` on a newline-free line:
leading digits, a literal dot and space, a word-character name, an opening
parenthesis, and the argument text up to the last closing parenthesis.
The optional trailing `(\s*#\w+\n)?` group requires a newline and can
therefore never consume anything on a line; any text after the last
closing parenthesis is ignored, exactly as the anchored-prefix
`re.match` ignores it. -/
def parseAction (line : List Char) : Option (Nat × List Char × List Char) :=
  let ds := line.takeWhile Char.isDigit
  if ds = [] then none
  else
    match line.drop ds.length with
    | c1 :: c2 :: rest =>
      if c1 = Char.ofNat 46 ∧ c2 = Char.ofNat 32 then
        let nm := rest.takeWhile isWordChar
        if nm = [] then none
        else
          match rest.drop nm.length with
          | c3 :: afterP =>
            if c3 = Char.ofNat 40 then
              (lastParenSplit afterP).map fun args => (digitsToNat ds, nm, args)
            else none
          | [] => none
      else none
    | _ => none

/-- Model of `LLMCompilerPlanParser._parse_task`: classify one line, yielding
an optional task and the updated thought state; `Except.error` models the
`OutputParserException` escaping from `instantiate_task`. -/
def parseTaskLine (tools : List BTool) (line : List Char)
    (thought : Option (List Char)) :
    Except String (Option Task × Option (List Char)) :=
  match parseThought line with
  | some t => .ok (none, some t)
  | none =>
    match parseAction line with
    | some a =>
      match instantiate_task tools a.1 (String.mk a.2.1) (String.mk a.2.2)
          (thought.map String.mk) with
      | .ok task => .ok (some task, none)
      | .error e => .error e
    | none => .ok (none, thought)

/-- The line loop inside `ingest_token`: parse each complete line in order,
threading the thought; collect the `(task, thought)` pairs the generator
yields (it yields only when a task was produced) and stop at the first
raised exception. -/
def processLines (tools : List BTool) : List (List Char) → Option (List Char) →
    List (Task × Option (List Char)) × Option String
  | [], _ => ([], none)
  | l :: ls, th =>
    match parseTaskLine tools l th with
    | .error e => ([], some e)
    | .ok (some task, th2) =>
      let r := processLines tools ls th2
      ((task, th2) :: r.1, r.2)
    | .ok (none, th2) => processLines tools ls th2

/-- Model of `LLMCompilerPlanParser.ingest_token`: append the token to the
buffer; when the token contains a newline, split the joined buffer into
lines, process every complete line, and keep the trailing partial line as
the new buffer.  Returns the yielded pairs, the pending exception if one
was raised, and the new buffer. -/
def ingest_token (tools : List BTool) (token : List Char)
    (texts : List (List Char)) (thought : Option (List Char)) :
    (List (Task × Option (List Char)) × Option String) × List (List Char) :=
  let texts2 := texts ++ [token]
  if token.contains nl then
    let ls := splitNl texts2.flatten
    let pr := processLines tools ls.dropLast thought
    (pr, [ls.getLastD []])
  else (([], none), texts2)

/-- Result of a full `_transform` run: the tasks the generator yielded, and
the exception that aborted it, if any. -/
structure PRes where
  tasks : List Task
  err : Option String

/-- Model of `LLMCompilerPlanParser._transform`: feed each chunk through
`ingest_token`; the transform-level thought is updated only by yielded
pairs; at end of stream, parse the remaining buffer as one line if the
buffer list is non-empty. -/
def transformAux (tools : List BTool) : List String → List (List Char) →
    Option (List Char) → PRes
  | [], texts, th =>
    if texts.isEmpty then ⟨[], none⟩
    else
      match parseTaskLine tools texts.flatten th with
      | .error e => ⟨[], some e⟩
      | .ok (some t, _) => ⟨[t], none⟩
      | .ok (none, _) => ⟨[], none⟩
  | c :: cs, texts, th =>
    let r := ingest_token tools c.toList texts th
    let tasks := r.1.1.map Prod.fst
    match r.1.2 with
    | some e => ⟨tasks, some e⟩
    | none =>
      let th2 := match r.1.1.getLast? with
        | some y => y.2
        | none => th
      let rest := transformAux tools cs r.2 th2
      ⟨tasks ++ rest.tasks, rest.err⟩

/-- Streaming entry point: `_transform` on a list of chunks, starting from
an empty buffer and no thought. -/
def transform (tools : List BTool) (chunks : List String) : PRes :=
  transformAux tools chunks [] none

/-- Model of `LLMCompilerPlanParser.parse`: the whole text as one chunk. -/
def parsePlan (tools : List BTool) (text : String) : PRes :=
  transform tools [text]

/-- Model of `_execute_task` from `task_fetching.py`: a string tool (the
`join` sentinel) is returned as-is without any call; otherwise the
arguments are resolved against the observation map and the tool invoked,
a raised invocation error being captured as an `ERROR:`-prefixed string.
Argument resolution is total on the embedded value domain, so the
resolution `except` branch of the source has no counterpart here. -/
def _execute_task (task : Task) (obs : Obs) : String :=
  match task.tool with
  | .str s => s
  | .tool t =>
    match t.invoke (task.args.map fun p => (p.1, _resolve_arg p.2 obs)) with
    | .ok r => r
    | .error e => "ERROR: Failed to execute " ++ t.name ++ ". Error: " ++ e

/-- Model of `schedule_task`: execute and record the observation under the
task's index. -/
def schedule_task (task : Task) (obs : Obs) : Obs :=
  insertObs obs task.idx (_execute_task task obs)

/-- Negation of the deferral test `deps and any(dep not in observations for
dep in deps)`: a task may run now iff its dependency list is empty or every
dependency has an observation. -/
def depsReady (task : Task) (obs : Obs) : Bool :=
  !(!task.dependencies.isEmpty && task.dependencies.any fun d => !keyMem obs d)

/-- The submission loop of `schedule_tasks`: run each task whose
dependencies are already observable, defer the rest (in submission order). -/
def mainPass : List Task → Obs → Obs × List Task
  | [], obs => (obs, [])
  | t :: ts, obs =>
    if depsReady t obs then mainPass ts (schedule_task t obs)
    else
      let r := mainPass ts obs
      (r.1, t :: r.2)

/-- The `task_names` dict of `schedule_tasks`: later tasks with the same
index overwrite earlier ones; consing later writes first makes the first
`lookupObs` hit the latest write. -/
def taskNames (tasks : List Task) : List (Nat × String) :=
  tasks.foldl (fun m t => (t.idx, toolName t.tool) :: m) []

/-- Fixpoint execution of the deferred tasks: each round runs every pending
task whose dependencies are now observable; a round that can run nothing
models the deferred polling workers of `schedule_pending_task` spinning
forever, returned as `none`.  One round always retires at least one task,
so fuel equal to the pending count suffices for every terminating run. -/
def pendingRounds : Nat → List Task → Obs → Option Obs
  | _, [], obs => some obs
  | 0, _ :: _, _ => none
  | fuel + 1, p :: ps, obs =>
    let pr := (p :: ps).partition fun t => depsReady t obs
    if pr.1.isEmpty then none
    else pendingRounds fuel pr.2 (pr.1.foldl (fun o t => schedule_task t o) obs)

/-- Model of `schedule_tasks` from `task_fetching.py`, with the pre-seeded
observation map (the result of `_get_observations(messages)`) passed
directly.  Returns `none` when the real code would never return (deferred
workers polling forever), and otherwise the list of new
`FunctionMessage`s as `(idx, name, content)` triples sorted by index. -/
def schedule_tasks (tasks : List Task) (obs0 : Obs) :
    Option (List (Nat × String × String)) :=
  let originals := obs0.map Prod.fst
  let mp := mainPass tasks obs0
  match pendingRounds mp.2.length mp.2 mp.1 with
  | none => none
  | some obsF =>
    let newKeys :=
      sortNat (((obsF.map Prod.fst).dedup).filter fun k => !originals.contains k)
    some (newKeys.map fun i =>
      (i, (lookupObs (taskNames tasks) i).getD "", (lookupObs obsF i).getD ""))

/-- Status of one worker in the interleaving model of `schedule_tasks`:
`waiting` models a deferred worker still inside the polling loop of
`schedule_pending_task`, `ready` models a worker that has passed the
dependency check and is about to call `schedule_task`, `done` models a
worker whose observation write has happened.  The main loop's immediate
execution path is the interleaving in which check and invoke happen
back-to-back. -/
inductive TStat where
  | waiting
  | ready
  | done
deriving Repr, DecidableEq

/-- Shared state of the interleaving model: the observation dict plus one
worker per task occurrence in the plan. -/
structure SState where
  obs : Obs
  threads : List (Task × TStat)

/-- Observable events: a successful dependency check by worker `i`, and an
invocation by worker `i` recording the observation map at that moment. -/
inductive Ev where
  | checked (i : Nat)
  | invoked (i : Nat) (obsAt : Obs)

/-- One atomic step of the interleaving model.  A `check` step is the
dependency test reading the shared dict; an `invoke` step is the
execute-and-write of `schedule_task`.  Between a worker's check and its
invoke, any other workers may step — exactly the freedom the GIL-scheduled
threads of the source have. -/
inductive SStep : SState → Ev → SState → Prop where
  | check (s : SState) (i : Nat) (t : Task)
      (hth : s.threads[i]? = some (t, .waiting))
      (hdeps : depsReady t s.obs = true) :
      SStep s (.checked i) ⟨s.obs, s.threads.set i (t, .ready)⟩
  | invoke (s : SState) (i : Nat) (t : Task)
      (hth : s.threads[i]? = some (t, .ready)) :
      SStep s (.invoked i s.obs) ⟨schedule_task t s.obs, s.threads.set i (t, .done)⟩

/-- Finite interleaved executions of the model. -/
inductive Traces : SState → List Ev → SState → Prop where
  | nil (s : SState) : Traces s [] s
  | cons {s s2 s3 : SState} {e : Ev} {evs : List Ev} :
      SStep s e s2 → Traces s2 evs s3 → Traces s (e :: evs) s3

/-- Test for an invocation event of worker `i`. -/
def isInvokeOf (i : Nat) : Ev → Bool
  | .invoked j _ => j = i
  | .checked _ => false

/-- Decidable check that no worker invokes twice in an event list. -/
def invokedAtMostOnce : List Ev → Bool
  | [] => true
  | .invoked i _ :: rest =>
      rest.all (fun e2 => !isInvokeOf i e2) && invokedAtMostOnce rest
  | .checked _ :: rest => invokedAtMostOnce rest

/-- Decidable check that every invocation event of worker `i` happened with
every dependency of task `i` already present in the observation map
recorded at that moment. -/
def invokedAfterDeps (tasks : List Task) (evs : List Ev) : Bool :=
  evs.all fun e =>
    match e with
    | .invoked i oAt =>
      match tasks[i]? with
      | some t => t.dependencies.all (keyMem oAt)
      | none => true
    | .checked _ => true

theorem mem_insSorted {a i : Nat} {l : List Nat} :
    a ∈ insSorted i l ↔ a = i ∨ a ∈ l := by
  induction l with
  | nil => simp [insSorted]
  | cons j js ih =>
    by_cases h : i ≤ j
    · simp [insSorted, h]
    · simp only [insSorted, if_neg h, List.mem_cons, ih]
      tauto

theorem mem_sortNat {a : Nat} {l : List Nat} : a ∈ sortNat l ↔ a ∈ l := by
  induction l with
  | nil => simp [sortNat]
  | cons j js ih =>
    simp only [sortNat, List.foldr_cons, mem_insSorted, List.mem_cons]
    rw [sortNat] at ih
    rw [ih]

theorem insSorted_perm (i : Nat) (l : List Nat) :
    (insSorted i l).Perm (i :: l) := by
  induction l with
  | nil => simp [insSorted]
  | cons j js ih =>
    by_cases h : i ≤ j
    · simp [insSorted, h]
    · simp only [insSorted, if_neg h]
      exact (ih.cons j).trans (List.Perm.swap i j js)

theorem sortNat_perm (l : List Nat) : (sortNat l).Perm l := by
  induction l with
  | nil => simp [sortNat]
  | cons j js ih => exact (insSorted_perm j (sortNat js)).trans (ih.cons j)

theorem sorted_insSorted {i : Nat} {l : List Nat}
    (h : l.Sorted (· ≤ ·)) : (insSorted i l).Sorted (· ≤ ·) := by
  induction l with
  | nil => simp [insSorted]
  | cons j js ih =>
    by_cases hle : i ≤ j
    · simp only [insSorted, if_pos hle]
      refine List.sorted_cons.mpr ⟨?_, h⟩
      intro b hb
      rcases List.mem_cons.mp hb with hb | hb
      · omega
      · have := (List.sorted_cons.mp h).1 b hb
        omega
    · simp only [insSorted, if_neg hle]
      rw [List.sorted_cons] at h
      refine List.sorted_cons.mpr ⟨?_, ih h.2⟩
      intro b hb
      rcases mem_insSorted.mp hb with hb | hb
      · omega
      · exact h.1 b hb

theorem sorted_sortNat (l : List Nat) : (sortNat l).Sorted (· ≤ ·) := by
  induction l with
  | nil => simp [sortNat]
  | cons j js ih => exact sorted_insSorted ih

theorem sortNat_sorted_lt {l : List Nat} (h : l.Nodup) :
    (sortNat l).Sorted (· < ·) := by
  have hn : (sortNat l).Nodup := (sortNat_perm l).nodup_iff.mpr h
  have hs := sorted_sortNat l
  have := List.Pairwise.and hs hn
  exact this.imp fun hab => lt_of_le_of_ne hab.1 hab.2

theorem takeWhile_all_append {p : Char → Bool} {ds : List Char} (rest : List Char)
    (h : ds.all p = true) : (ds ++ rest).takeWhile p = ds ++ rest.takeWhile p := by
  induction ds with
  | nil => rfl
  | cons c cs ih =>
    simp only [List.all_cons, Bool.and_eq_true] at h
    simp [List.takeWhile_cons, h.1, ih h.2]

/-- Computation of `tryRef` on a fully braced reference-token tail. -/
theorem tryRef_braced (ds suf : List Char) (hne : ds ≠ [])
    (hd : ds.all Char.isDigit = true) :
    tryRef (lbrace :: (ds ++ rbrace :: suf)) =
      some (dollar :: lbrace :: (ds ++ [rbrace]), digitsToNat ds, suf) := by
  unfold tryRef
  dsimp only
  rw [show stripLead lbrace (lbrace :: (ds ++ rbrace :: suf)) =
      ([lbrace], ds ++ rbrace :: suf) from by simp [stripLead]]
  rw [show (ds ++ rbrace :: suf).takeWhile Char.isDigit = ds from by
    rw [takeWhile_all_append _ hd, List.takeWhile_cons_of_neg (by decide)]
    simp]
  rw [if_neg hne, List.drop_left]
  rw [show stripLead rbrace (rbrace :: suf) = ([rbrace], suf) from by simp [stripLead]]
  simp

/-- Positional behaviour of the reference substitution: a reference-free
prefix is copied verbatim, the token is replaced (or kept when the index
has no observation), and scanning continues on the remainder. -/
theorem scanSub_token (obs : Obs) (pre ds suf : List Char)
    (hp : (pre.all fun c => c ≠ dollar) = true) (hne : ds ≠ [])
    (hd : ds.all Char.isDigit = true) :
    scanSub obs (pre ++ dollar :: lbrace :: (ds ++ rbrace :: suf)) =
      pre ++ refReplace obs (digitsToNat ds) (dollar :: lbrace :: (ds ++ [rbrace])) ++
        scanSub obs suf := by
  induction pre with
  | nil =>
    simp only [List.nil_append]
    rw [show (dollar :: lbrace :: (ds ++ rbrace :: suf)) =
      dollar :: (lbrace :: (ds ++ rbrace :: suf)) from rfl]
    rw [scanSub_cons_dollar_some obs (tryRef_braced ds suf hne hd)]
  | cons c cs ih =>
    simp only [List.all_cons, Bool.and_eq_true] at hp
    have hc : c ≠ dollar := by simpa using hp.1
    simp only [List.cons_append]
    rw [scanSub_cons_not_dollar obs _ hc, ih hp.2]

/-- Computation of `tryRef` on an unbraced reference-token tail `$N`: no
opening brace, a maximal digit run, and — since the trailing `\}?` is an
independent optional — a remainder that must not start with a digit (which
would extend the run) or a closing brace (which the regex would consume
into the match). -/
theorem tryRef_unbraced (ds suf : List Char) (hne : ds ≠ [])
    (hd : ds.all Char.isDigit = true)
    (hs : ((suf.take 1).all fun c => !c.isDigit && !(c = rbrace)) = true) :
    tryRef (ds ++ suf) = some (dollar :: ds, digitsToNat ds, suf) := by
  cases ds with
  | nil => exact absurd rfl hne
  | cons d ds2 =>
    have hdd : d.isDigit = true := by
      have := List.all_eq_true.mp hd d (List.mem_cons_self d ds2)
      simpa using this
    have hdl : ¬ d = lbrace := by
      intro h
      rw [h] at hdd
      exact absurd hdd (by decide)
    unfold tryRef
    dsimp only
    rw [show stripLead lbrace ((d :: ds2) ++ suf) = ([], (d :: ds2) ++ suf) from by
      simp [stripLead, hdl]]
    rw [takeWhile_all_append suf hd]
    have hsuftw : suf.takeWhile Char.isDigit = [] := by
      cases suf with
      | nil => rfl
      | cons c suf2 =>
        have hc := List.all_eq_true.mp hs c (by simp)
        simp only [Bool.and_eq_true, Bool.not_eq_true'] at hc
        exact List.takeWhile_cons_of_neg (by simp [hc.1])
    rw [hsuftw, List.append_nil, if_neg hne, List.drop_left]
    have hstrip2 : stripLead rbrace suf = ([], suf) := by
      cases suf with
      | nil => rfl
      | cons c suf2 =>
        have hc := List.all_eq_true.mp hs c (by simp)
        simp only [Bool.and_eq_true, Bool.not_eq_true'] at hc
        have : ¬ c = rbrace := of_decide_eq_false hc.2
        simp [stripLead, this]
    rw [hstrip2]
    simp

/-- Positional behaviour of the reference substitution on the unbraced
token form `$N`: the dollar-free prefix is copied verbatim, the token is
replaced (or kept when the index has no observation), and scanning
continues on the remainder. -/
theorem scanSub_token_unbraced (obs : Obs) (pre ds suf : List Char)
    (hp : (pre.all fun c => c ≠ dollar) = true) (hne : ds ≠ [])
    (hd : ds.all Char.isDigit = true)
    (hs : ((suf.take 1).all fun c => !c.isDigit && !(c = rbrace)) = true) :
    scanSub obs (pre ++ dollar :: (ds ++ suf)) =
      pre ++ refReplace obs (digitsToNat ds) (dollar :: ds) ++
        scanSub obs suf := by
  induction pre with
  | nil =>
    simp only [List.nil_append]
    rw [scanSub_cons_dollar_some obs (tryRef_unbraced ds suf hne hd hs)]
  | cons c cs ih =>
    simp only [List.all_cons, Bool.and_eq_true] at hp
    have hc : c ≠ dollar := by simpa using hp.1
    simp only [List.cons_append]
    rw [scanSub_cons_not_dollar obs _ hc, ih hp.2]

theorem keyMem_iff {obs : Obs} {d : Nat} :
    keyMem obs d = true ↔ d ∈ obs.map Prod.fst := by
  simp [keyMem]

theorem schedule_task_keys (t : Task) (obs : Obs) :
    (schedule_task t obs).map Prod.fst = t.idx :: obs.map Prod.fst := rfl

theorem mainPass_keys (ts : List Task) (obs : Obs) (i : Nat) :
    (i ∈ (mainPass ts obs).1.map Prod.fst ∨ i ∈ (mainPass ts obs).2.map Task.idx) ↔
    (i ∈ obs.map Prod.fst ∨ i ∈ ts.map Task.idx) := by
  induction ts generalizing obs with
  | nil => simp [mainPass]
  | cons t ts ih =>
    by_cases h : depsReady t obs
    · simp only [mainPass, if_pos h]
      rw [ih]
      simp only [schedule_task_keys, List.map_cons, List.mem_cons]
      tauto
    · simp only [mainPass, if_neg h]
      have := ih obs
      simp only [List.map_cons, List.mem_cons]
      tauto

theorem foldl_schedule_keys (l : List Task) (obs : Obs) (i : Nat) :
    i ∈ ((l.foldl (fun o t => schedule_task t o) obs).map Prod.fst) ↔
      (i ∈ obs.map Prod.fst ∨ i ∈ l.map Task.idx) := by
  induction l generalizing obs with
  | nil => simp
  | cons t ts ih =>
    simp only [List.foldl_cons]
    rw [ih]
    simp only [schedule_task_keys, List.map_cons, List.mem_cons]
    tauto

theorem partition_map_mem (l : List Task) (pred : Task → Bool) (i : Nat) :
    (i ∈ (l.partition pred).1.map Task.idx ∨ i ∈ (l.partition pred).2.map Task.idx) ↔
    i ∈ l.map Task.idx := by
  simp only [List.partition_eq_filter_filter, List.mem_map, List.mem_filter]
  constructor
  · rintro (⟨t, ⟨h1, h2⟩, h3⟩ | ⟨t, ⟨h1, h2⟩, h3⟩) <;> exact ⟨t, h1, h3⟩
  · rintro ⟨t, h1, h3⟩
    by_cases hp : pred t = true
    · exact Or.inl ⟨t, ⟨h1, hp⟩, h3⟩
    · exact Or.inr ⟨t, ⟨h1, by simpa using hp⟩, h3⟩

theorem pendingRounds_keys :
    ∀ (fuel : Nat) (pending : List Task) (obs obsF : Obs),
      pendingRounds fuel pending obs = some obsF →
      ∀ i, i ∈ obsF.map Prod.fst ↔
        (i ∈ obs.map Prod.fst ∨ i ∈ pending.map Task.idx) := by
  intro fuel
  induction fuel with
  | zero =>
    intro pending obs obsF h i
    cases pending with
    | nil =>
      injection h with h
      subst h
      simp
    | cons p ps => cases h
  | succ f ih =>
    intro pending obs obsF h i
    cases pending with
    | nil =>
      injection h with h
      subst h
      simp
    | cons p ps =>
      simp only [pendingRounds] at h
      split at h
      · cases h
      · have := ih _ _ _ h i
        rw [this, foldl_schedule_keys]
        have hpart := partition_map_mem (p :: ps) (fun t => depsReady t obs) i
        tauto

theorem bnot_contains_iff {l : List Nat} {a : Nat} :
    ((!l.contains a) = true) ↔ a ∉ l := by
  rw [Bool.not_eq_true', Bool.eq_false_iff]
  exact not_congr List.elem_iff

theorem sortNat_eq_of_mem_iff {l1 l2 : List Nat} (h1 : l1.Nodup) (h2 : l2.Nodup)
    (h : ∀ i, i ∈ l1 ↔ i ∈ l2) : sortNat l1 = sortNat l2 := by
  have hp : (sortNat l1).Perm (sortNat l2) :=
    ((sortNat_perm l1).trans ((List.perm_ext_iff_of_nodup h1 h2).mpr h)).trans
      (sortNat_perm l2).symm
  exact List.eq_of_perm_of_sorted hp (sorted_sortNat l1) (sorted_sortNat l2)

/-- Tasks that agree on index, dependency list and display name; their
tools' `invoke` functions — and hence their results, including failures —
may differ arbitrarily. -/
def sameShape (a b : Task) : Prop :=
  a.idx = b.idx ∧ a.dependencies = b.dependencies ∧ toolName a.tool = toolName b.tool

theorem depsReady_congr {a b : Task} {obs1 obs2 : Obs}
    (hs : sameShape a b) (ho : obs1.map Prod.fst = obs2.map Prod.fst) :
    depsReady a obs1 = depsReady b obs2 := by
  unfold depsReady keyMem
  rw [hs.2.1, ho]

theorem filter_congr_forall2 {R : Task → Task → Prop} {l1 l2 : List Task}
    {p q : Task → Bool} (h : List.Forall₂ R l1 l2)
    (hpq : ∀ a b, R a b → p a = q b) :
    List.Forall₂ R (l1.filter p) (l2.filter q) := by
  induction h with
  | nil => exact List.Forall₂.nil
  | @cons a b l1x l2x hr hrest ih =>
    simp only [List.filter_cons]
    rw [hpq a b hr]
    cases hq : q b with
    | true => simpa using List.Forall₂.cons hr ih
    | false => simpa using ih

theorem mainPass_congr {ts1 ts2 : List Task} (h : List.Forall₂ sameShape ts1 ts2) :
    ∀ {obs1 obs2 : Obs}, obs1.map Prod.fst = obs2.map Prod.fst →
      (mainPass ts1 obs1).1.map Prod.fst = (mainPass ts2 obs2).1.map Prod.fst ∧
      List.Forall₂ sameShape (mainPass ts1 obs1).2 (mainPass ts2 obs2).2 := by
  induction h with
  | nil =>
    intro obs1 obs2 ho
    exact ⟨ho, List.Forall₂.nil⟩
  | @cons a b l1 l2 hr hrest ih =>
    intro obs1 obs2 ho
    have hd := depsReady_congr hr ho
    by_cases hda : depsReady a obs1 = true
    · have hdb : depsReady b obs2 = true := hd ▸ hda
      simp only [mainPass, if_pos hda, if_pos hdb]
      exact ih (by simp only [schedule_task_keys, ho, hr.1])
    · have hdb : ¬ depsReady b obs2 = true := by rw [← hd]; exact hda
      simp only [mainPass, if_neg hda, if_neg hdb]
      exact ⟨(ih ho).1, List.Forall₂.cons hr (ih ho).2⟩

theorem foldl_schedule_congr {l1 l2 : List Task}
    (h : List.Forall₂ sameShape l1 l2) :
    ∀ {obs1 obs2 : Obs}, obs1.map Prod.fst = obs2.map Prod.fst →
      (l1.foldl (fun o t => schedule_task t o) obs1).map Prod.fst =
      (l2.foldl (fun o t => schedule_task t o) obs2).map Prod.fst := by
  induction h with
  | nil =>
    intro obs1 obs2 ho
    exact ho
  | @cons a b l1x l2x hr hrest ih =>
    intro obs1 obs2 ho
    simp only [List.foldl_cons]
    exact ih (by simp only [schedule_task_keys, ho, hr.1])

theorem isEmpty_congr {R : Task → Task → Prop} {l1 l2 : List Task}
    (h : List.Forall₂ R l1 l2) : l1.isEmpty = l2.isEmpty := by
  cases h <;> rfl

theorem pendingRounds_congr : ∀ (fuel : Nat) {p1 p2 : List Task},
    List.Forall₂ sameShape p1 p2 → ∀ {obs1 obs2 : Obs},
    obs1.map Prod.fst = obs2.map Prod.fst →
    Option.map (List.map Prod.fst) (pendingRounds fuel p1 obs1) =
      Option.map (List.map Prod.fst) (pendingRounds fuel p2 obs2) := by
  intro fuel
  induction fuel with
  | zero =>
    intro p1 p2 h obs1 obs2 ho
    cases h with
    | nil => simp [pendingRounds, ho]
    | cons hr hrest => rfl
  | succ f ih =>
    intro p1 p2 h obs1 obs2 ho
    cases h with
    | nil => simp [pendingRounds, ho]
    | @cons a b l1 l2 hr hrest =>
      simp only [pendingRounds, List.partition_eq_filter_filter]
      have hready := filter_congr_forall2 (List.Forall₂.cons hr hrest)
        (fun x y hxy => depsReady_congr hxy ho)
      have hwait := filter_congr_forall2 (List.Forall₂.cons hr hrest)
        (p := fun t => !depsReady t obs1) (q := fun t => !depsReady t obs2)
        (fun x y hxy => by simp only [depsReady_congr hxy ho])
      rw [isEmpty_congr hready]
      by_cases he : (((b :: l2).filter fun t => depsReady t obs2).isEmpty) = true
      · rw [if_pos he, if_pos he]
      · rw [if_neg he, if_neg he]
        exact ih hwait (foldl_schedule_congr hready ho)

theorem taskNames_congr_aux {ts1 ts2 : List Task}
    (h : List.Forall₂ sameShape ts1 ts2) :
    ∀ acc : List (Nat × String),
      ts1.foldl (fun m t => (t.idx, toolName t.tool) :: m) acc =
      ts2.foldl (fun m t => (t.idx, toolName t.tool) :: m) acc := by
  induction h with
  | nil => intro acc; rfl
  | @cons a b l1 l2 hr hrest ih =>
    intro acc
    simp only [List.foldl_cons]
    rw [hr.1, hr.2.2]
    exact ih _

theorem taskNames_congr {ts1 ts2 : List Task}
    (h : List.Forall₂ sameShape ts1 ts2) : taskNames ts1 = taskNames ts2 :=
  taskNames_congr_aux h []

theorem keyMem_insert_mono {obs : Obs} {i : Nat} {v : String} {d : Nat}
    (h : keyMem obs d = true) : keyMem (insertObs obs i v) d = true := by
  rw [keyMem_iff] at h ⊢
  simp only [insertObs, List.map_cons, List.mem_cons]
  exact Or.inr h

theorem depsReady_iff_all {t : Task} {obs : Obs} :
    depsReady t obs = true ↔ (t.dependencies.all fun d => keyMem obs d) = true := by
  unfold depsReady
  cases hd : t.dependencies with
  | nil => simp
  | cons d ds =>
    simp only [List.isEmpty_cons, Bool.not_false, Bool.true_and, Bool.not_eq_true,
      List.any_eq_false, List.all_eq_true, Bool.not_eq_true']
    constructor
    · intro hall x hx
      have := hall x hx
      simpa using this
    · intro hall x hx
      simp [hall x hx]

theorem SStep_obs_mono {s s2 : SState} {e : Ev} (h : SStep s e s2) {d : Nat}
    (hd : keyMem s.obs d = true) : keyMem s2.obs d = true := by
  cases h with
  | check i t hth hdeps => exact hd
  | invoke i t hth => exact keyMem_insert_mono hd

/-- Worker `i` never changes task; only its status advances. -/
def ThreadsOf (tasks : List Task) (s : SState) : Prop :=
  ∀ (i : Nat) (p : Task × TStat), s.threads[i]? = some p → tasks[i]? = some p.1

/-- Every worker that has passed its dependency check still sees all its
dependencies in the observation map (the map only ever grows). -/
def ReadyInv (s : SState) : Prop :=
  ∀ (i : Nat) (t : Task), s.threads[i]? = some (t, TStat.ready) →
    (t.dependencies.all fun d => keyMem s.obs d) = true

theorem lt_length_of_getElem? {α : Type} {l : List α} {i : Nat} {x : α}
    (h : l[i]? = some x) : i < l.length := by
  by_contra hc
  rw [List.getElem?_eq_none (by omega)] at h
  cases h

theorem SStep_ThreadsOf {tasks : List Task} {s s2 : SState} {e : Ev}
    (h : SStep s e s2) (hT : ThreadsOf tasks s) : ThreadsOf tasks s2 := by
  unfold ThreadsOf
  cases h with
  | check j t hth hdeps =>
    intro i p hp
    by_cases hij : j = i
    · subst hij
      rw [List.getElem?_set_self (lt_length_of_getElem? hth)] at hp
      injection hp with hp
      subst hp
      exact hT j (t, TStat.waiting) hth
    · rw [List.getElem?_set_ne hij] at hp
      exact hT i p hp
  | invoke j t hth =>
    intro i p hp
    by_cases hij : j = i
    · subst hij
      rw [List.getElem?_set_self (lt_length_of_getElem? hth)] at hp
      injection hp with hp
      subst hp
      exact hT j (t, TStat.ready) hth
    · rw [List.getElem?_set_ne hij] at hp
      exact hT i p hp

theorem SStep_ReadyInv {s s2 : SState} {e : Ev}
    (h : SStep s e s2) (hR : ReadyInv s) : ReadyInv s2 := by
  unfold ReadyInv
  cases h with
  | check j t hth hdeps =>
    intro i t2 hp
    by_cases hij : j = i
    · subst hij
      rw [List.getElem?_set_self (lt_length_of_getElem? hth)] at hp
      injection hp with hp
      injection hp with h1 h2
      subst h1
      exact depsReady_iff_all.mp hdeps
    · rw [List.getElem?_set_ne hij] at hp
      exact hR i t2 hp
  | invoke j t hth =>
    intro i t2 hp
    by_cases hij : j = i
    · subst hij
      rw [List.getElem?_set_self (lt_length_of_getElem? hth)] at hp
      injection hp with hp
      injection hp with h1 h2
      cases h2
    · rw [List.getElem?_set_ne hij] at hp
      have hall := hR i t2 hp
      rw [List.all_eq_true] at hall ⊢
      intro d hd
      exact keyMem_insert_mono (hall d hd)

theorem trace_done_no_invoke {i : Nat} :
    ∀ {s : SState} {evs : List Ev} {sF : SState}, Traces s evs sF →
      (∀ p : Task × TStat, s.threads[i]? = some p → p.2 = TStat.done) →
      (evs.all fun e => !isInvokeOf i e) = true := by
  intro s evs sF h
  induction h with
  | nil =>
    intro _
    rfl
  | @cons s s2 s3 e evs hstep htr ih =>
    intro hd
    have hd2 : ∀ p : Task × TStat, s2.threads[i]? = some p → p.2 = TStat.done := by
      cases hstep with
      | check j t hth hdeps =>
        intro p hp
        by_cases hij : j = i
        · subst hij
          exact TStat.noConfusion (hd (t, TStat.waiting) hth)
        · rw [List.getElem?_set_ne hij] at hp
          exact hd p hp
      | invoke j t hth =>
        intro p hp
        by_cases hij : j = i
        · subst hij
          exact TStat.noConfusion (hd (t, TStat.ready) hth)
        · rw [List.getElem?_set_ne hij] at hp
          exact hd p hp
    have hev : (!isInvokeOf i e) = true := by
      cases hstep with
      | check j t hth hdeps => rfl
      | invoke j t hth =>
        by_cases hij : j = i
        · subst hij
          exact TStat.noConfusion (hd (t, TStat.ready) hth)
        · simp [isInvokeOf, hij]
    simp only [List.all_cons, hev, ih hd2, Bool.and_self]

theorem trace_invokedAtMostOnce :
    ∀ {s : SState} {evs : List Ev} {sF : SState}, Traces s evs sF →
      invokedAtMostOnce evs = true := by
  intro s evs sF h
  induction h with
  | nil => rfl
  | @cons s s2 s3 e evs hstep htr ih =>
    cases hstep with
    | check j t hth hdeps => exact ih
    | invoke j t hth =>
      have hni : (evs.all fun e => !isInvokeOf j e) = true := by
        apply trace_done_no_invoke htr
        intro p hp
        rw [List.getElem?_set_self (lt_length_of_getElem? hth)] at hp
        injection hp with hp
        rw [← hp]
      show ((evs.all fun e => !isInvokeOf j e) && invokedAtMostOnce evs) = true
      rw [hni, ih]
      rfl

theorem trace_invokedAfterDeps (tasks : List Task) :
    ∀ {s : SState} {evs : List Ev} {sF : SState}, Traces s evs sF →
      ThreadsOf tasks s → ReadyInv s → invokedAfterDeps tasks evs = true := by
  intro s evs sF h
  induction h with
  | nil =>
    intro _ _
    rfl
  | @cons s s2 s3 e evs hstep htr ih =>
    intro hT hR
    have hrest := ih (SStep_ThreadsOf hstep hT) (SStep_ReadyInv hstep hR)
    cases hstep with
    | check j t hth hdeps =>
      unfold invokedAfterDeps at hrest ⊢
      simp only [List.all_cons, hrest, Bool.and_true]
    | invoke j t hth =>
      have htask : tasks[j]? = some t := hT j (t, TStat.ready) hth
      unfold invokedAfterDeps at hrest ⊢
      simp only [List.all_cons, hrest, Bool.and_true, htask]
      exact hR j t hth

theorem splitNl_ne_nil (cs : List Char) : splitNl cs ≠ [] := by
  induction cs with
  | nil => simp [splitNl]
  | cons c rest ih =>
    by_cases hc : c = nl
    · simp [splitNl, hc]
    · simp only [splitNl, if_neg hc]
      cases h : splitNl rest with
      | nil => simp
      | cons l ls => simp

theorem splitNl_cons_nl (a : List Char) : splitNl (nl :: a) = [] :: splitNl a := by
  simp [splitNl]

theorem splitNl_cons_not_nl {c : Char} (a : List Char) (hc : c ≠ nl) :
    splitNl (c :: a) = (c :: (splitNl a).headD []) :: (splitNl a).tail := by
  simp only [splitNl, if_neg hc]
  cases h : splitNl a with
  | nil => exact absurd h (splitNl_ne_nil a)
  | cons l ls => rfl

theorem splitNl_no_nl (cs : List Char) : ∀ l ∈ splitNl cs, nl ∉ l := by
  induction cs with
  | nil =>
    intro l hl
    simp [splitNl] at hl
    simp [hl]
  | cons c rest ih =>
    by_cases hc : c = nl
    · subst hc
      rw [splitNl_cons_nl]
      intro l hl
      rcases List.mem_cons.mp hl with hl | hl
      · simp [hl]
      · exact ih l hl
    · rw [splitNl_cons_not_nl rest hc]
      intro l hl
      rcases List.mem_cons.mp hl with hl | hl
      · subst hl
        intro hmem
        rcases List.mem_cons.mp hmem with hmem | hmem
        · exact hc hmem.symm
        · cases hsa : splitNl rest with
          | nil => exact absurd hsa (splitNl_ne_nil rest)
          | cons l0 ls0 =>
            rw [hsa] at hmem
            exact ih l0 (hsa ▸ List.mem_cons_self l0 ls0) hmem
      · cases hsa : splitNl rest with
        | nil => exact absurd hsa (splitNl_ne_nil rest)
        | cons l0 ls0 =>
          rw [hsa] at hl
          exact ih l (hsa ▸ List.mem_cons_of_mem l0 hl)

theorem splitNl_of_no_nl (a : List Char) (h : ¬ (a.contains nl = true)) :
    splitNl a = [a] := by
  induction a with
  | nil => rfl
  | cons c rest ih =>
    have hc : c ≠ nl := by
      intro hh
      refine h ?_
      simp only [List.contains_cons, Bool.or_eq_true, beq_iff_eq]
      exact Or.inl hh.symm
    have hrest : ¬ (rest.contains nl = true) := by
      intro hh
      refine h ?_
      simp only [List.contains_cons, Bool.or_eq_true, beq_iff_eq]
      exact Or.inr hh
    rw [splitNl_cons_not_nl rest hc, ih hrest]
    rfl

theorem getLastD_of_ne_nil {α : Type} :
    ∀ {l : List α}, l ≠ [] → ∀ d1 d2 : α, l.getLastD d1 = l.getLastD d2 := by
  intro l
  induction l with
  | nil => intro h; exact absurd rfl h
  | cons x t ih =>
    intro _ d1 d2
    cases t with
    | nil => rfl
    | cons y t2 => rfl

theorem getLastD_mem {α : Type} :
    ∀ {l : List α}, l ≠ [] → ∀ d : α, l.getLastD d ∈ l := by
  intro l
  induction l with
  | nil => intro h; exact absurd rfl h
  | cons x t ih =>
    intro _ d
    cases t with
    | nil => simp
    | cons y t2 =>
      rw [List.getLastD_cons]
      exact List.mem_cons_of_mem x (ih (by simp) x)

theorem splitNl_append (a b : List Char) :
    splitNl (a ++ b) =
      (splitNl a).dropLast ++ splitNl ((splitNl a).getLastD [] ++ b) := by
  induction a with
  | nil => rfl
  | cons c a ih =>
    by_cases hc : c = nl
    · subst hc
      rw [show (nl :: a) ++ b = nl :: (a ++ b) from rfl]
      rw [splitNl_cons_nl, splitNl_cons_nl,
        List.dropLast_cons_of_ne_nil (splitNl_ne_nil a), List.getLastD_cons, ih]
      rfl
    · rw [show (c :: a) ++ b = c :: (a ++ b) from rfl]
      rw [splitNl_cons_not_nl (a ++ b) hc, splitNl_cons_not_nl a hc, ih]
      cases hsa : splitNl a with
      | nil => exact absurd hsa (splitNl_ne_nil a)
      | cons l0 ls0 =>
        cases ls0 with
        | nil =>
          simp only [List.headD_cons, List.tail_cons]
          rw [show ((c :: l0) :: ([] : List (List Char))).getLastD [] ++ b =
            c :: (l0 ++ b) from rfl, splitNl_cons_not_nl (l0 ++ b) hc]
          rfl
        | cons l1 ls1 =>
          simp only [List.headD_cons, List.tail_cons]
          rw [List.dropLast_cons_of_ne_nil (show (l1 :: ls1) ≠ [] by simp),
            List.dropLast_cons_of_ne_nil (show (l1 :: ls1) ≠ [] by simp)]
          rfl

/-- Forget a task's attached thought. -/
def eraseThought (t : Task) : Task :=
  { t with thought := none }

/-- Thought-free classification of one line: what `_parse_task` yields on a
line, up to the attached thought. -/
def parseLineCore (tools : List BTool) (l : List Char) : Except String (Option Task) :=
  (parseTaskLine tools l none).map fun p => p.1.map eraseThought

/-- Canonical semantics of processing a list of lines in order: collect the
(thought-erased) tasks and stop at the first raised exception. -/
def runLinesE (tools : List BTool) : List (List Char) → PRes
  | [] => ⟨[], none⟩
  | l :: ls =>
    match parseLineCore tools l with
    | .error e => ⟨[], some e⟩
    | .ok ot =>
      let r := runLinesE tools ls
      ⟨ot.toList ++ r.tasks, r.err⟩

/-- Sequencing of two runs: the second only happens when the first did not
raise. -/
def seqRes (r1 r2 : PRes) : PRes :=
  match r1.err with
  | some _ => r1
  | none => ⟨r1.tasks ++ r2.tasks, r2.err⟩

/-- Thought-erased parse result of a whole `_transform` run. -/
def eraseRes (r : PRes) : PRes :=
  ⟨r.tasks.map eraseThought, r.err⟩

theorem runLinesE_append (tools : List BTool) (xs ys : List (List Char)) :
    runLinesE tools (xs ++ ys) = seqRes (runLinesE tools xs) (runLinesE tools ys) := by
  induction xs with
  | nil => rfl
  | cons l ls ih =>
    show runLinesE tools (l :: (ls ++ ys)) = _
    cases hres : parseLineCore tools l with
    | error e =>
      simp only [runLinesE, hres, seqRes]
    | ok ot =>
      simp only [runLinesE, hres, ih, seqRes]
      cases herr : (runLinesE tools ls).err with
      | none => simp [herr, List.append_assoc]
      | some e => simp [herr]

theorem instantiate_task_thought (tools : List BTool) (idx : Nat) (nm : String)
    (args : String) (th : Option String) :
    instantiate_task tools idx nm args th =
      (instantiate_task tools idx nm args none).map fun t =>
        { t with thought := th } := by
  unfold instantiate_task
  cases hx : (if nm = "join" then some (ToolRef.str "join")
      else (tools.find? fun t => t.name = nm).map ToolRef.tool) with
  | none => rfl
  | some tool => rfl

theorem parseTaskLine_erase (tools : List BTool) (l : List Char)
    (th : Option (List Char)) :
    (parseTaskLine tools l th).map (fun p => p.1.map eraseThought) =
      parseLineCore tools l := by
  unfold parseLineCore parseTaskLine
  cases parseThought l with
  | some t => rfl
  | none =>
    cases parseAction l with
    | none => rfl
    | some a =>
      obtain ⟨idx, nm, args⟩ := a
      dsimp only
      rw [instantiate_task_thought tools idx (String.mk nm) (String.mk args)
        (th.map String.mk)]
      simp only [Option.map_none']
      cases instantiate_task tools idx (String.mk nm) (String.mk args) none with
      | error e => rfl
      | ok task => rfl

theorem processLines_erase (tools : List BTool) :
    ∀ (ls : List (List Char)) (th : Option (List Char)),
      ((processLines tools ls th).1.map fun y => eraseThought y.1) =
        (runLinesE tools ls).tasks ∧
      (processLines tools ls th).2 = (runLinesE tools ls).err := by
  intro ls
  induction ls with
  | nil =>
    intro th
    exact ⟨rfl, rfl⟩
  | cons l ls ih =>
    intro th
    have he := parseTaskLine_erase tools l th
    cases hpt : parseTaskLine tools l th with
    | error e =>
      rw [hpt] at he
      simp only [Except.map] at he
      simp only [processLines, hpt, runLinesE, ← he]
      exact ⟨rfl, trivial⟩
    | ok p =>
      obtain ⟨ot, th2⟩ := p
      rw [hpt] at he
      simp only [Except.map] at he
      cases ot with
      | none =>
        simp only [processLines, hpt, runLinesE, ← he]
        simpa using ih th2
      | some task =>
        simp only [processLines, hpt, runLinesE, ← he]
        refine ⟨?_, (ih th2).2⟩
        simp only [List.map_cons, Option.toList]
        rw [(ih th2).1]
        rfl

theorem PRes_eq (r1 r2 : PRes) (h1 : r1.tasks = r2.tasks) (h2 : r1.err = r2.err) :
    r1 = r2 := by
  cases r1
  cases r2
  cases h1
  cases h2
  rfl

theorem contains_true_of_mem {l : List Char} {a : Char} (h : a ∈ l) :
    l.contains a = true := List.elem_iff.mpr h

theorem not_contains_of_not_mem {l : List Char} {a : Char} (h : a ∉ l) :
    ¬ (l.contains a = true) := fun hc => h (List.elem_iff.mp hc)

/-- The buffer/line bookkeeping of `_transform` is chunking-independent up
to thoughts: a run of `transformAux` from a newline-free buffer equals the
canonical line-by-line run over the split of the whole remaining text. -/
theorem transformAux_runLines (tools : List BTool) :
    ∀ (chunks : List String) (texts : List (List Char)) (th : Option (List Char)),
      ¬ (texts.flatten.contains nl = true) →
      eraseRes (transformAux tools chunks texts th) =
        runLinesE tools (splitNl (texts.flatten ++ (chunks.map String.toList).flatten)) := by
  intro chunks
  induction chunks with
  | nil =>
    intro texts th hb
    by_cases hte : texts.isEmpty = true
    · have htnil : texts = [] := by
        cases texts with
        | nil => rfl
        | cons x xs => simp at hte
      subst htnil
      rfl
    · have hsingle : splitNl texts.flatten = [texts.flatten] := splitNl_of_no_nl _ hb
      simp only [List.map_nil, List.flatten_nil, List.append_nil, hsingle]
      have he := parseTaskLine_erase tools texts.flatten th
      simp only [transformAux, if_neg hte]
      cases hpt : parseTaskLine tools texts.flatten th with
      | error e =>
        rw [hpt] at he
        simp only [Except.map] at he
        simp only [runLinesE, ← he]
        rfl
      | ok p =>
        obtain ⟨ot, th2⟩ := p
        rw [hpt] at he
        simp only [Except.map] at he
        cases ot with
        | none =>
          simp only [runLinesE, ← he]
          rfl
        | some t =>
          simp only [runLinesE, ← he]
          rfl
  | cons c cs ih =>
    intro texts th hb
    have hflat2 : (texts ++ [c.toList]).flatten = texts.flatten ++ c.toList := by
      simp
    by_cases hnl : (c.toList.contains nl) = true
    · -- the chunk completes at least one line
      simp only [transformAux, ingest_token, if_pos hnl, hflat2]
      simp only [List.map_cons, List.flatten_cons, ← List.append_assoc]
      rw [splitNl_append (texts.flatten ++ c.toList) ((cs.map String.toList).flatten)]
      rw [runLinesE_append]
      have hPL := processLines_erase tools
        ((splitNl (texts.flatten ++ c.toList)).dropLast) th
      have hlastnn : nl ∉ (splitNl (texts.flatten ++ c.toList)).getLastD [] :=
        splitNl_no_nl _ _
          (getLastD_mem (splitNl_ne_nil (texts.flatten ++ c.toList)) [])
      cases herr : (processLines tools
          ((splitNl (texts.flatten ++ c.toList)).dropLast) th).2 with
      | some e =>
        have hre : (runLinesE tools
            ((splitNl (texts.flatten ++ c.toList)).dropLast)).err = some e :=
          hPL.2.symm.trans herr
        dsimp only
        refine PRes_eq _ _ ?_ ?_
        · simp only [eraseRes, seqRes, hre, List.map_map]
          exact hPL.1
        · simp only [eraseRes, seqRes, hre]
      | none =>
        have hre : (runLinesE tools
            ((splitNl (texts.flatten ++ c.toList)).dropLast)).err = none :=
          hPL.2.symm.trans herr
        have hbl : ¬ (([(splitNl (texts.flatten ++ c.toList)).getLastD []] :
            List (List Char)).flatten.contains nl = true) := by
          refine not_contains_of_not_mem ?_
          simpa using hlastnn
        have hih := ih [(splitNl (texts.flatten ++ c.toList)).getLastD []]
          (match (processLines tools
            ((splitNl (texts.flatten ++ c.toList)).dropLast) th).1.getLast? with
            | some y => y.2
            | none => th) hbl
        simp only [List.flatten_cons, List.flatten_nil, List.append_nil] at hih
        dsimp only
        refine PRes_eq _ _ ?_ ?_
        · simp only [eraseRes, seqRes, hre, List.map_append, List.map_map]
          rw [show ∀ l : List (Task × Option (List Char)),
              List.map (eraseThought ∘ Prod.fst) l =
              List.map (fun y => eraseThought y.1) l from fun l => rfl]
          rw [hPL.1]
          have := congrArg PRes.tasks hih
          simp only [eraseRes] at this
          rw [this]
        · simp only [eraseRes, seqRes, hre]
          have := congrArg PRes.err hih
          simp only [eraseRes] at this
          rw [this]
    · -- the chunk has no newline: it is only buffered
      have hb2 : ¬ ((texts ++ [c.toList]).flatten.contains nl = true) := by
        rw [hflat2]
        intro hcontr
        rcases List.mem_append.mp (List.elem_iff.mp hcontr) with hmem | hmem
        · exact hb (contains_true_of_mem hmem)
        · exact hnl (contains_true_of_mem hmem)
      have hih := ih (texts ++ [c.toList]) th hb2
      rw [hflat2] at hih
      simp only [transformAux, ingest_token, if_neg hnl]
      simp only [List.map_cons, List.flatten_cons, ← List.append_assoc]
      exact hih

theorem string_foldl_toList (l : List String) :
    ∀ acc : String, (l.foldl (fun r s => r ++ s) acc).toList =
      acc.toList ++ (l.map String.toList).flatten := by
  induction l with
  | nil =>
    intro acc
    simp
  | cons x xs ihx =>
    intro acc
    simp only [List.foldl_cons, ihx, List.map_cons, List.flatten_cons]
    simp [String.toList]

theorem string_join_toList (l : List String) :
    (String.join l).toList = (l.map String.toList).flatten := by
  have := string_foldl_toList l ""
  simpa [String.join] using this

/-! ## Claim theorems -/

/-- C2: a task whose capability name is the sentinel `join` at index `k`
gets dependency set `range(1, k) = {1, ..., k-1}` from
`_get_dependencies_from_graph`, for every possible raw argument text
(including the empty string), every tool registry and every thought. -/
theorem C2_join_dependency_range (tools : List BTool) (k : Nat) (raw : String)
    (th : Option String) :
    (instantiate_task tools k "join" raw th).map Task.dependencies =
      Except.ok (List.range' 1 (k - 1)) ∧
    ∀ d : Nat, d ∈ List.range' 1 (k - 1) ↔ 1 ≤ d ∧ d < k := by
  constructor
  · simp [instantiate_task, _get_dependencies_from_graph, Except.map]
  · intro d
    rw [List.mem_range'_1]
    omega

/-- C3 as stated is false: a non-`join` task may textually reference an
index greater than or equal to its own index, and
`_get_dependencies_from_graph` puts that index into the dependency set.
At index 1 with argument text `$2`, the dependency set contains 2. -/
theorem C3_counterexample_forward_reference :
    2 ∈ _get_dependencies_from_graph 1 "search" [("q", Arg.str "$2")] ∧
    ¬ (2 < 1) := by
  constructor
  · decide
  · omega

/-- C3 amended: dependencies of a `join` task are always strictly below its
index; for any other task the dependency set is exactly the reference
indices occurring in the stringified argument values, so it is strictly
below the task's index whenever every reference token in the argument
values is — but not for forward references, which are kept as-is. -/
theorem C3_backward_dependencies (idx : Nat) (tool_name : String)
    (args : List (String × Arg))
    (h : (args.all fun p => (findRefs (argToString p.2).toList).all
      fun n => n < idx) = true) :
    ((_get_dependencies_from_graph idx tool_name args).all fun d => d < idx) = true := by
  unfold _get_dependencies_from_graph
  rw [List.all_eq_true] at h ⊢
  intro d hd
  split at hd
  · rw [List.mem_range'] at hd
    simp only [decide_eq_true_eq]
    omega
  · rw [mem_sortNat, List.mem_dedup, List.mem_flatten] at hd
    obtain ⟨refs, hrefs, hdm⟩ := hd
    rw [List.mem_map] at hrefs
    obtain ⟨p, hp, hpe⟩ := hrefs
    have := h p hp
    rw [List.all_eq_true] at this
    exact this d (hpe ▸ hdm)

theorem C3_backward_dependencies_witness :
    (([("q", Arg.str "$1")].all fun p =>
      (findRefs (argToString p.2).toList).all fun n => n < 2) = true) ∧
    ((_get_dependencies_from_graph 2 "search" [("q", Arg.str "$1")]).all
      fun d => d < 2) = true :=
  ⟨by decide, C3_backward_dependencies 2 "search" [("q", Arg.str "$1")] (by decide)⟩

/-- C9 as stated is false: for a string-typed tool (the `join` sentinel)
and the non-empty argument text `hello`, `_parse_llm_compiler_action_args`
returns the empty mapping, not a single-key mapping holding the raw
text. -/
theorem C9_counterexample_no_fallback_key :
    _parse_llm_compiler_action_args "hello" (ToolRef.str "join") = [] ∧
    ("hello" : String) ≠ "" := by
  constructor
  · rfl
  · decide

/-- C9 amended: for every string-typed tool the argument parser returns the
empty mapping whatever the raw argument text is — the `isinstance(tool,
BaseTool)` guard skips all extraction, and the raw text is discarded. -/
theorem C9_string_tool_empty_args (args : String) (s : String) :
    _parse_llm_compiler_action_args args (ToolRef.str s) = [] := by
  unfold _parse_llm_compiler_action_args
  split <;> rfl

/-- C6 as stated is false: splitting the plan text at a chunk boundary
between a `Thought:` line and its action line loses the attached thought.
The generator communicates the threaded thought to `_transform` only via
yielded `(task, thought)` pairs, and a chunk whose lines produce no task
yields nothing, so the thought set inside that `ingest_token` call is
discarded.  One chunk attaches `T`; the two-chunk split of the same text
attaches nothing. -/
theorem C6_counterexample_thought_lost :
    ((transform [] ["Thought: T\n1. join()\n"]).tasks.map Task.thought =
      [some "T"]) ∧
    ((transform [] ["Thought: T\n", "1. join()\n"]).tasks.map Task.thought =
      [none]) ∧
    String.join ["Thought: T\n", "1. join()\n"] = "Thought: T\n1. join()\n" := by
  refine ⟨?_, ?_, ?_⟩ <;> rfl

/-- C6 amended: feeding the chunks one at a time and feeding their
concatenation as a single chunk yield the same ordered task list up to each
task's attached thought — same indices, tools, arguments and dependency
sets — and the same abort error if any line raises; only the attached
thoughts can differ (when a chunk boundary separates a `Thought:` line from
its action line). -/
theorem C6_streaming_equiv_up_to_thought (tools : List BTool) (chunks : List String) :
    eraseRes (transform tools chunks) =
      eraseRes (transform tools [String.join chunks]) := by
  unfold transform
  rw [transformAux_runLines tools chunks [] none (by simp),
      transformAux_runLines tools [String.join chunks] [] none (by simp)]
  simp only [List.flatten_nil, List.nil_append, List.map_cons, List.map_nil,
    List.flatten_cons, List.append_nil, string_join_toList]

/-- C7: the reference resolver leaves reference-free strings unchanged,
recurses element-wise into lists, passes non-string scalars through, and
substitutes each reference token — in both its braced form `$\x7bN\x7d`
and its unbraced form `$N` — by the stringified observation of its index
when present, keeping the literal token text when absent — without ever
failing. -/
theorem C7_resolver_behavior :
    (∀ (s : String) (obs : Obs), findRefs s.toList = [] →
      _resolve_arg (.str s) obs = .str s) ∧
    (∀ (l : List Arg) (obs : Obs),
      _resolve_arg (.vals l) obs = .vals (l.map fun a => _resolve_arg a obs)) ∧
    (∀ (n : Int) (obs : Obs), _resolve_arg (.num n) obs = .num n) ∧
    (∀ (obs : Obs) (pre ds suf : List Char),
      (pre.all fun c => c ≠ dollar) = true → ds ≠ [] →
      ds.all Char.isDigit = true →
      scanSub obs (pre ++ dollar :: lbrace :: (ds ++ rbrace :: suf)) =
        pre ++ (match lookupObs obs (digitsToNat ds) with
          | some v => v.toList
          | none => dollar :: lbrace :: (ds ++ [rbrace])) ++ scanSub obs suf) ∧
    (∀ (obs : Obs) (pre ds suf : List Char),
      (pre.all fun c => c ≠ dollar) = true → ds ≠ [] →
      ds.all Char.isDigit = true →
      ((suf.take 1).all fun c => !c.isDigit && !(c = rbrace)) = true →
      scanSub obs (pre ++ dollar :: (ds ++ suf)) =
        pre ++ (match lookupObs obs (digitsToNat ds) with
          | some v => v.toList
          | none => dollar :: ds) ++ scanSub obs suf) := by
  refine ⟨?_, ?_, ?_, ?_, ?_⟩
  · intro s obs h
    show Arg.str (String.mk (scanSub obs s.toList)) = Arg.str s
    rw [scanSub_of_findRefs_nil obs _ h]
    rfl
  · intro l obs
    show Arg.vals (resolveList l obs) = _
    rw [resolveList_eq_map]
  · intro n obs
    rfl
  · intro obs pre ds suf hp hne hd
    rw [scanSub_token obs pre ds suf hp hne hd]
    rfl
  · intro obs pre ds suf hp hne hd hs
    rw [scanSub_token_unbraced obs pre ds suf hp hne hd hs]
    rfl

theorem C7_resolver_behavior_witness :
    (findRefs ("plain text, no references" : String).toList = [] ∧
      _resolve_arg (.str "plain text, no references") [(1, "X")] =
        .str "plain text, no references") ∧
    (("see ".toList.all fun c => c ≠ dollar) = true ∧ ("7".toList ≠ []) ∧
      ("7".toList.all Char.isDigit) = true ∧
      scanSub [(7, "seven")]
          ("see ".toList ++ dollar :: lbrace :: ("7".toList ++ rbrace :: " ok".toList)) =
        "see ".toList ++ (match lookupObs [(7, "seven")] (digitsToNat "7".toList) with
          | some v => v.toList
          | none => dollar :: lbrace :: ("7".toList ++ [rbrace])) ++
          scanSub [(7, "seven")] " ok".toList) ∧
    (("see ".toList.all fun c => c ≠ dollar) = true ∧ ("7".toList ≠ []) ∧
      ("7".toList.all Char.isDigit) = true ∧
      (((" ok".toList.take 1).all fun c => !c.isDigit && !(c = rbrace)) = true) ∧
      scanSub [(7, "seven")]
          ("see ".toList ++ dollar :: ("7".toList ++ " ok".toList)) =
        "see ".toList ++ (match lookupObs [(7, "seven")] (digitsToNat "7".toList) with
          | some v => v.toList
          | none => dollar :: "7".toList) ++
          scanSub [(7, "seven")] " ok".toList) :=
  ⟨⟨by decide, C7_resolver_behavior.1 "plain text, no references" [(1, "X")] (by decide)⟩,
   ⟨by decide, by decide, by decide,
    C7_resolver_behavior.2.2.2.1 [(7, "seven")] "see ".toList "7".toList " ok".toList
      (by decide) (by decide) (by decide)⟩,
   ⟨by decide, by decide, by decide, by decide,
    C7_resolver_behavior.2.2.2.2 [(7, "seven")] "see ".toList "7".toList " ok".toList
      (by decide) (by decide) (by decide) (by decide)⟩⟩

/-- C8 as stated is false: a plan line naming a capability that is not in
the registry (and is not `join`) makes `instantiate_task` raise an
`OutputParserException`, which aborts the whole parse — nothing is
recorded as an Observation and the rest of the plan does not execute.
With an empty registry, the plan `1. foo()` followed by `2. join()` parses
to no tasks at all and surfaces the exception. -/
theorem C8_counterexample_unknown_tool_raises :
    (transform [] ["1. foo()\n2. join()\n"]).err = some "Tool foo not found." ∧
    (transform [] ["1. foo()\n2. join()\n"]).tasks = [] := by
  constructor <;> rfl

/-- C8 amended: a capability name that is neither `join` nor the name of a
registered tool makes `instantiate_task` raise `OutputParserException`
(`Tool ... not found.`) at parse time; the plan is aborted rather than the
failure being recorded as an Observation. -/
theorem C8_unknown_tool_error (tools : List BTool) (idx : Nat)
    (tool_name : String) (args : String) (th : Option String)
    (hn : tool_name ≠ "join")
    (hf : (tools.all fun t => t.name ≠ tool_name) = true) :
    instantiate_task tools idx tool_name args th =
      .error ("Tool " ++ tool_name ++ " not found.") := by
  have hfind : (tools.find? fun t => t.name = tool_name) = none := by
    rw [List.find?_eq_none]
    intro t ht
    have := (List.all_eq_true.mp hf) t ht
    simpa using this
  unfold instantiate_task
  rw [if_neg hn, hfind]
  rfl

theorem C8_unknown_tool_error_witness :
    (("foo" : String) ≠ "join") ∧
    (([] : List BTool).all fun t => t.name ≠ "foo") = true ∧
    instantiate_task [] 3 "foo" "x=1" none =
      .error ("Tool " ++ "foo" ++ " not found.") :=
  ⟨by decide, rfl, C8_unknown_tool_error [] 3 "foo" "x=1" none (by decide) rfl⟩

/-- C1: along every interleaved execution of the scheduler model starting
from all workers waiting, no worker invokes its task more than once, and
every invocation happens with every index of the task's dependency set
already present in the observation map recorded at the moment of
invocation. -/
theorem C1_invoke_once_after_deps (tasks : List Task) (obs0 : Obs)
    (evs : List Ev) (sF : SState)
    (h : Traces ⟨obs0, tasks.map fun t => (t, TStat.waiting)⟩ evs sF) :
    invokedAtMostOnce evs = true ∧ invokedAfterDeps tasks evs = true := by
  refine ⟨trace_invokedAtMostOnce h, trace_invokedAfterDeps tasks h ?_ ?_⟩
  · intro i p hp
    rw [List.getElem?_map] at hp
    cases ht : tasks[i]? with
    | none =>
      rw [ht] at hp
      cases hp
    | some t =>
      rw [ht] at hp
      injection hp with hp
      rw [← hp]
  · intro i t hp
    rw [List.getElem?_map] at hp
    cases ht : tasks[i]? with
    | none =>
      rw [ht] at hp
      cases hp
    | some t2 =>
      rw [ht] at hp
      injection hp with hp
      injection hp with h1 h2
      cases h2

theorem C1_invoke_once_after_deps_witness :
    invokedAtMostOnce [Ev.checked 0, Ev.invoked 0 []] = true ∧
    invokedAfterDeps [(⟨1, ToolRef.str "join", [], [], none⟩ : Task)]
      [Ev.checked 0, Ev.invoked 0 []] = true :=
  C1_invoke_once_after_deps [⟨1, ToolRef.str "join", [], [], none⟩] [] _ _
    (Traces.cons
      (SStep.check ⟨[], [(⟨1, ToolRef.str "join", [], [], none⟩, TStat.waiting)]⟩
        0 ⟨1, ToolRef.str "join", [], [], none⟩ rfl rfl)
      (Traces.cons
        (SStep.invoke ⟨[], [(⟨1, ToolRef.str "join", [], [], none⟩, TStat.ready)]⟩
          0 ⟨1, ToolRef.str "join", [], [], none⟩ rfl)
        (Traces.nil _)))

/-- C4: a failing capability invocation is captured as an
`ERROR:`-prefixed string written into the Observation map under the task's
index instead of being raised (first conjunct), and the course of the
whole schedule — whether it returns, which task indices produce
observations, and in which order they are returned — depends only on the
tasks' indices, dependency lists and names, never on whether any
invocation failed (second conjunct); so every task depending on a failing
task still runs and produces its own Observation.  Argument resolution is
a total function in the model (and in the source can only raise via
exotic `__str__` overrides), so the resolution-failure branch has no
separate case here. -/
theorem C4_failure_containment :
    (∀ (task : Task) (obs : Obs) (t : BTool) (e : String),
      task.tool = ToolRef.tool t →
      t.invoke (task.args.map fun p => (p.1, _resolve_arg p.2 obs)) = .error e →
      schedule_task task obs =
        insertObs obs task.idx
          ("ERROR: Failed to execute " ++ t.name ++ ". Error: " ++ e)) ∧
    (∀ (tasks1 tasks2 : List Task) (obs0 : Obs),
      List.Forall₂ sameShape tasks1 tasks2 →
      Option.map (List.map fun o => (o.1, o.2.1)) (schedule_tasks tasks1 obs0) =
        Option.map (List.map fun o => (o.1, o.2.1)) (schedule_tasks tasks2 obs0)) := by
  constructor
  · intro task obs t e ht he
    unfold schedule_task _execute_task
    rw [ht]
    dsimp only
    rw [he]
  · intro tasks1 tasks2 obs0 h
    unfold schedule_tasks
    dsimp only
    have hmp := mainPass_congr h (rfl : obs0.map Prod.fst = obs0.map Prod.fst)
    have hlen := hmp.2.length_eq
    have hpr := pendingRounds_congr ((mainPass tasks1 obs0).2.length) hmp.2 hmp.1
    rw [← hlen]
    cases h1 : pendingRounds (mainPass tasks1 obs0).2.length (mainPass tasks1 obs0).2
        (mainPass tasks1 obs0).1 with
    | none =>
      cases h2 : pendingRounds (mainPass tasks1 obs0).2.length (mainPass tasks2 obs0).2
          (mainPass tasks2 obs0).1 with
      | none => rfl
      | some o2 =>
        rw [h1, h2] at hpr
        cases hpr
    | some o1 =>
      cases h2 : pendingRounds (mainPass tasks1 obs0).2.length (mainPass tasks2 obs0).2
          (mainPass tasks2 obs0).1 with
      | none =>
        rw [h1, h2] at hpr
        cases hpr
      | some o2 =>
        rw [h1, h2] at hpr
        injection hpr with hkeys
        dsimp only
        rw [hkeys, taskNames_congr h]
        simp only [Option.map_some', List.map_map]
        refine congrArg some (congrArg (fun g => List.map g _) ?_)
        funext i
        rfl

theorem C4_failure_containment_witness :
    ((⟨2, ToolRef.tool ⟨"boom", ["q"], fun _ => .error "x"⟩,
        [("q", Arg.str "$1")], [1], none⟩ : Task).tool =
      ToolRef.tool ⟨"boom", ["q"], fun _ => .error "x"⟩) ∧
    ((⟨"boom", ["q"], fun _ => .error "x"⟩ : BTool)).invoke
        ((⟨2, ToolRef.tool ⟨"boom", ["q"], fun _ => .error "x"⟩,
          [("q", Arg.str "$1")], [1], none⟩ : Task).args.map
          fun p => (p.1, _resolve_arg p.2 [(1, "A")])) = .error "x" ∧
    schedule_task
        (⟨2, ToolRef.tool ⟨"boom", ["q"], fun _ => .error "x"⟩,
          [("q", Arg.str "$1")], [1], none⟩ : Task) [(1, "A")] =
      insertObs [(1, "A")] 2 "ERROR: Failed to execute boom. Error: x" :=
  ⟨rfl, rfl,
    C4_failure_containment.1
      (⟨2, ToolRef.tool ⟨"boom", ["q"], fun _ => .error "x"⟩,
        [("q", Arg.str "$1")], [1], none⟩ : Task) [(1, "A")]
      ⟨"boom", ["q"], fun _ => .error "x"⟩ "x" rfl rfl⟩

/-- C5: whenever `schedule_tasks` returns (see C10 for the dangling case in
which it does not), the indices of the returned messages are exactly the
task indices not present in the pre-seeded observation map — each exactly
once, in strictly increasing order — and a plan with no tasks returns the
empty list. -/
theorem C5_new_observations_sorted (tasks : List Task) (obs0 : Obs)
    (out : List (Nat × String × String))
    (h : schedule_tasks tasks obs0 = some out) :
    out.map (fun o => o.1) =
      sortNat (((tasks.map Task.idx).dedup).filter fun i =>
        !((obs0.map Prod.fst).contains i)) ∧
    (out.map fun o => o.1).Sorted (· < ·) ∧
    (tasks = [] → out = []) := by
  unfold schedule_tasks at h
  dsimp only at h
  cases hp : pendingRounds (mainPass tasks obs0).2.length (mainPass tasks obs0).2
      (mainPass tasks obs0).1 with
  | none =>
    rw [hp] at h
    cases h
  | some obsF =>
    rw [hp] at h
    dsimp only at h
    injection h with h
    subst h
    have hkeys : ∀ i, i ∈ obsF.map Prod.fst ↔
        (i ∈ obs0.map Prod.fst ∨ i ∈ tasks.map Task.idx) := by
      intro i
      rw [pendingRounds_keys _ _ _ _ hp i]
      exact mainPass_keys tasks obs0 i
    have hmapfst :
        ((sortNat (((obsF.map Prod.fst).dedup).filter fun k =>
          !((obs0.map Prod.fst).contains k))).map
            (fun i => (i, ((lookupObs (taskNames tasks) i).getD ""),
              ((lookupObs obsF i).getD "")))).map (fun o => o.1) =
        sortNat (((obsF.map Prod.fst).dedup).filter fun k =>
          !((obs0.map Prod.fst).contains k)) := by
      rw [List.map_map]
      have hco : ((fun (o : Nat × String × String) => o.1) ∘ fun i =>
          (i, ((lookupObs (taskNames tasks) i).getD ""),
            ((lookupObs obsF i).getD ""))) = fun i => i := rfl
      rw [hco, List.map_id']
    have hnd1 : (((obsF.map Prod.fst).dedup).filter fun k =>
        !((obs0.map Prod.fst).contains k)).Nodup :=
      (List.nodup_dedup _).filter _
    have hnd2 : (((tasks.map Task.idx).dedup).filter fun i =>
        !((obs0.map Prod.fst).contains i)).Nodup :=
      (List.nodup_dedup _).filter _
    have hiff : ∀ i, i ∈ (((obsF.map Prod.fst).dedup).filter fun k =>
        !((obs0.map Prod.fst).contains k)) ↔
        i ∈ (((tasks.map Task.idx).dedup).filter fun i =>
          !((obs0.map Prod.fst).contains i)) := by
      intro i
      simp only [List.mem_filter, List.mem_dedup, bnot_contains_iff]
      rw [hkeys i]
      tauto
    have hmain := sortNat_eq_of_mem_iff hnd1 hnd2 hiff
    refine ⟨by rw [hmapfst, hmain], ?_, ?_⟩
    · rw [hmapfst, hmain]
      exact sortNat_sorted_lt hnd2
    · intro he
      subst he
      rw [hmain]
      rfl

theorem C5_new_observations_sorted_witness :
    schedule_tasks
        [(⟨2, ToolRef.str "join", [], [1], none⟩ : Task),
         (⟨1, ToolRef.str "echo", [], [], none⟩ : Task)] [(5, "old")] =
      some [(1, "echo", "echo"), (2, "join", "join")] ∧
    (([(1, "echo", "echo"), (2, "join", "join")] :
        List (Nat × String × String)).map (fun o => o.1) =
      sortNat (((([(⟨2, ToolRef.str "join", [], [1], none⟩ : Task),
          (⟨1, ToolRef.str "echo", [], [], none⟩ : Task)]).map Task.idx).dedup).filter
        fun i => !((([((5 : Nat), ("old" : String))]).map Prod.fst).contains i)) ∧
    (([(1, "echo", "echo"), (2, "join", "join")] :
        List (Nat × String × String)).map fun o => o.1).Sorted (· < ·) ∧
    ([(⟨2, ToolRef.str "join", [], [1], none⟩ : Task),
      (⟨1, ToolRef.str "echo", [], [], none⟩ : Task)] = ([] : List Task) →
      [(1, "echo", "echo"), (2, "join", "join")] =
        ([] : List (Nat × String × String)))) :=
  ⟨rfl, C5_new_observations_sorted _ _ _ rfl⟩

/-- C10: the claim demands a dangling-reference guard or a bounded wait,
and the code has neither — `schedule_pending_task` polls forever.  In the
model, a single task at index 1 depending on index 2 (which nothing ever
produces) makes the deferred-round fixpoint stick, i.e. `schedule_tasks`
never returns (`none`). -/
theorem C10_dangling_reference_hangs :
    schedule_tasks [(⟨1, ToolRef.str "search_result", [], [2], none⟩ : Task)] [] =
      none := rfl

end LLMC

